import Mathlib

set_option maxHeartbeats 1000000

/-!
# LineEdit — verification of the suggestion-alignment and diff core

A shallow embedding of the algorithmic core of the LineEdit editor
(`src/components/Editor.tsx` and `src/services/geminiService.ts`).
JavaScript strings are embedded as `List Char`; the JS string primitives
used by the source (`indexOf` with a start position, `substring`, `slice`)
are reproduced with their exact clamping behaviour.
-/

namespace LineEdit

/-- The JS character class `[a-zA-Z0-9_]` used by the tokenizer regex in
`computeDiff` (Editor.tsx line 29). -/
def isWordChar (c : Char) : Bool :=
  (('a' ≤ c && c ≤ 'z') || ('A' ≤ c && c ≤ 'Z') || ('0' ≤ c && c ≤ '9') || c = '_')

/-- The JS `\s` whitespace class (ECMA-262 WhiteSpace ∪ LineTerminator),
by code point. -/
def isJsSpace (c : Char) : Bool :=
  let n := c.toNat
  n = 9 || n = 10 || n = 11 || n = 12 || n = 13 || n = 32 ||
  n = 0xa0 || n = 0x1680 || (0x2000 ≤ n && n ≤ 0x200a) ||
  n = 0x2028 || n = 0x2029 || n = 0x202f || n = 0x205f || n = 0x3000 || n = 0xfeff

/-- `text.match(/([a-zA-Z0-9_]+|\s+|[^a-zA-Z0-9_\s])/g) || []`
(Editor.tsx lines 29–30): maximal runs of word characters, maximal runs of
whitespace, and single other characters, scanned left to right.  `null`
(no match, i.e. empty input) becomes the empty token list. -/
def tokenize : List Char → List (List Char)
  | [] => []
  | c :: cs =>
    if isWordChar c then
      (c :: cs.takeWhile isWordChar) :: tokenize (cs.dropWhile isWordChar)
    else if isJsSpace c then
      (c :: cs.takeWhile isJsSpace) :: tokenize (cs.dropWhile isJsSpace)
    else
      [c] :: tokenize cs
termination_by l => l.length
decreasing_by
  · exact Nat.lt_succ_of_le (List.dropWhile_sublist _).length_le
  · exact Nat.lt_succ_of_le (List.dropWhile_sublist _).length_le
  · exact Nat.lt_succ_self _

/-! ## Diff engine (`computeDiff`, Editor.tsx lines 28–61) -/

/-- The `type` field of a `DiffPart` (Editor.tsx line 26). -/
inductive DiffType where
  | same
  | add
  | remove
deriving DecidableEq, Repr

/-- `{ type: 'same' | 'add' | 'remove'; value: string }` (Editor.tsx line 26). -/
structure DiffPart where
  type : DiffType
  value : List Char
deriving DecidableEq, Repr

/-- The LCS dynamic-programming table built by the nested loops of
`computeDiff` (Editor.tsx lines 32–42): `lcsMatrix t1 t2 i j` is
`matrix[i][j]`.  Row 0 and column 0 stay at their `fill(0)` value; interior
cells follow the classic LCS recurrence exactly as in the source. -/
def lcsMatrix (t1 t2 : List (List Char)) : Nat → Nat → Nat
  | 0, _ => 0
  | _+1, 0 => 0
  | i+1, j+1 =>
    if t1.getD i [] = t2.getD j [] then
      lcsMatrix t1 t2 i j + 1
    else
      max (lcsMatrix t1 t2 i (j+1)) (lcsMatrix t1 t2 (i+1) j)

/-- The backtracking `while (i > 0 || j > 0)` loop of `computeDiff`
(Editor.tsx lines 44–59).  The loop runs from the final cell down to
`(0, 0)` and `unshift`s one part per step, so the part emitted at state
`(i, j)` is the **last** element of the output produced for that state.
At `(i+1, j+1)` the source first tests `t1[i] === t2[j]` (emit `same`),
then `matrix[i][j-1] >= matrix[i-1][j]` — here
`lcsMatrix t1 t2 (i+1) j ≥ lcsMatrix t1 t2 i (j+1)` — (emit `add`),
otherwise emits `remove`; when one side is exhausted the tests collapse to
always-`add` (`i = 0`) or always-`remove` (`j = 0`). -/
def backtrack (t1 t2 : List (List Char)) : Nat → Nat → List DiffPart
  | 0, 0 => []
  | 0, j+1 => backtrack t1 t2 0 j ++ [⟨DiffType.add, t2.getD j []⟩]
  | i+1, 0 => backtrack t1 t2 i 0 ++ [⟨DiffType.remove, t1.getD i []⟩]
  | i+1, j+1 =>
    if t1.getD i [] = t2.getD j [] then
      backtrack t1 t2 i j ++ [⟨DiffType.same, t1.getD i []⟩]
    else if lcsMatrix t1 t2 (i+1) j ≥ lcsMatrix t1 t2 i (j+1) then
      backtrack t1 t2 (i+1) j ++ [⟨DiffType.add, t2.getD j []⟩]
    else
      backtrack t1 t2 i (j+1) ++ [⟨DiffType.remove, t1.getD i []⟩]
termination_by i j => i + j

/-- `computeDiff` (Editor.tsx lines 28–61): tokenize both strings, build the
LCS table, backtrack from the final cell. -/
def computeDiff (text1 text2 : List Char) : List DiffPart :=
  let t1 := tokenize text1
  let t2 := tokenize text2
  backtrack t1 t2 t1.length t2.length

/-- Concatenation of the `same` and `remove` values of a diff, in order. -/
def sameRemoveText (parts : List DiffPart) : List Char :=
  ((parts.filter (fun p => decide (p.type ≠ DiffType.add))).map DiffPart.value).flatten

/-- Concatenation of the `same` and `add` values of a diff, in order. -/
def sameAddText (parts : List DiffPart) : List Char :=
  ((parts.filter (fun p => decide (p.type ≠ DiffType.remove))).map DiffPart.value).flatten

/-- The backtracking procedure exactly as spec.md §4.2 prescribes it, for
comparison with the source's `backtrack`: from the current cell `(i, j)`,
if both sides still have a current token and the tokens are equal, emit a
kept token and step diagonally; otherwise prefer an `insert` (`add`) step
when the modified-side lookback value is ≥ the original-side lookback
value, or when the original side is exhausted; otherwise emit a `delete`
(`remove`) step. -/
def specBacktrack (t1 t2 : List (List Char)) (i j : Nat) : List DiffPart :=
  if h0 : i = 0 ∧ j = 0 then []
  else if hs : 0 < i ∧ 0 < j ∧ t1.getD (i-1) [] = t2.getD (j-1) [] then
    specBacktrack t1 t2 (i-1) (j-1) ++ [⟨DiffType.same, t1.getD (i-1) []⟩]
  else if ha : 0 < j ∧ (i = 0 ∨ lcsMatrix t1 t2 i (j-1) ≥ lcsMatrix t1 t2 (i-1) j) then
    specBacktrack t1 t2 i (j-1) ++ [⟨DiffType.add, t2.getD (j-1) []⟩]
  else
    specBacktrack t1 t2 (i-1) j ++ [⟨DiffType.remove, t1.getD (i-1) []⟩]
termination_by i + j
decreasing_by
  · obtain ⟨hi, hj, -⟩ := hs
    omega
  · obtain ⟨hj, -⟩ := ha
    omega
  · rcases Nat.eq_zero_or_pos i with hi | hi
    · exact absurd ⟨Nat.pos_of_ne_zero (fun hj0 => h0 ⟨hi, hj0⟩), Or.inl hi⟩ ha
    · omega

/-- The diff procedure exactly as the spec prescribes it: tokenize both
strings, then run the spec's backtrack from the final LCS-table cell. -/
def specDiff (text1 text2 : List Char) : List DiffPart :=
  specBacktrack (tokenize text1) (tokenize text2) (tokenize text1).length (tokenize text2).length

/-! ## Span matcher (`suggestionMatches`, Editor.tsx lines 162–191) -/

/-- `SuggestedChange` (`types.ts`): the three string fields of one AI
suggestion. -/
structure Suggestion where
  originalText : List Char
  modifiedText : List Char
  reason : List Char
deriving DecidableEq, Repr

/-- One matched span `{ start, end, sugIndex }` (Editor.tsx line 165);
the source's `end` field is called `endPos` because `end` is a Lean
keyword. -/
structure Span where
  start : Nat
  endPos : Nat
  sugIndex : Nat
deriving DecidableEq, Repr

/-- Does `pat` occur in `hay` starting at position `i`? -/
def occursAt (hay pat : List Char) (i : Nat) : Bool :=
  pat.isPrefixOf (hay.drop i)

/-- JS `hay.indexOf(pat, pos)`: the start position is clamped to
`[0, hay.length]`, and the result is the smallest index ≥ the clamped
position at which `pat` occurs (`none` for JS `-1`).  In particular an
empty `pat` "occurs" at every index, so the result is then the clamped
position itself. -/
def indexOfFrom (hay pat : List Char) (pos : Nat) : Option Nat :=
  (List.range (hay.length + 1)).find? (fun i => decide (min pos hay.length ≤ i) && occursAt hay pat i)

/-- The overlap test of `suggestionMatches` (Editor.tsx lines 173–176),
verbatim: a candidate `[s, e)` is flagged as overlapping an accepted match
`m` iff `(s ≥ m.start ∧ s < m.end) ∨ (e > m.start ∧ e ≤ m.end)`.  (Note
this does not flag a candidate that strictly contains `m`.) -/
def isOverlapping (ms : List Span) (s e : Nat) : Bool :=
  ms.any (fun m => (decide (s ≥ m.start) && decide (s < m.endPos)) ||
                   (decide (e > m.start) && decide (e ≤ m.endPos)))

/-- The `while (true)` search loop run for one suggestion
(Editor.tsx lines 168–187): find the next occurrence of `orig` at or after
`searchPos`; stop with no span if there is none; accept the first
occurrence the overlap test does not flag, else retry from
`foundIdx + 1`.  The loop in the source has no fuel; `fuel` only bounds
the number of iterations so the embedding is total.  When
`orig ≠ []` every iteration strictly increases `searchPos`, so
`content.length + 2` iterations always suffice and the fuel is never
exhausted (`findSpanLoop_fuel_irrelevant`); a `none` from exhausted fuel
(possible only for `orig = []`) corresponds to the source looping
forever, i.e. also to no span being produced. -/
def findSpanLoop (content orig : List Char) (ms : List Span) (idx : Nat) :
    Nat → Nat → Option Span
  | 0, _ => none
  | fuel+1, searchPos =>
    match indexOfFrom content orig searchPos with
    | none => none
    | some foundIdx =>
      if isOverlapping ms foundIdx (foundIdx + orig.length) then
        findSpanLoop content orig ms idx fuel (foundIdx + 1)
      else
        some ⟨foundIdx, foundIdx + orig.length, idx⟩

/-- The `suggestions.forEach((sug, idx) => ...)` loop of
`suggestionMatches` (Editor.tsx lines 167–188), accumulating accepted
spans in `ms` (the source `push`es to the end of `matches`). -/
def matchesLoop (content : List Char) : List Suggestion → Nat → List Span → List Span
  | [], _, ms => ms
  | sug :: rest, idx, ms =>
    match findSpanLoop content sug.originalText ms idx (content.length + 2) 0 with
    | none => matchesLoop content rest (idx+1) ms
    | some sp => matchesLoop content rest (idx+1) (ms ++ [sp])

/-- Stable insertion of a span into a list sorted ascending by `start`:
the new span goes after every already-present span whose `start` is ≤ its
own. -/
def insertSpan (x : Span) : List Span → List Span
  | [] => [x]
  | y :: ys => if y.start ≤ x.start then y :: insertSpan x ys else x :: y :: ys

/-- `matches.sort((a, b) => a.start - b.start)` (Editor.tsx line 190):
a stable ascending sort by `start`, as ECMAScript requires of
`Array.prototype.sort`. -/
def sortSpans (l : List Span) : List Span :=
  l.foldl (fun acc x => insertSpan x acc) []

/-- `suggestionMatches` (Editor.tsx lines 162–191): run the matching loop
over the suggestion list, then sort the accepted spans by `start`. -/
def suggestionMatches (content : List Char) (suggestions : List Suggestion) : List Span :=
  sortSpans (matchesLoop content suggestions 0 [])

/-! ## Aggregated preview text (`fullModifiedText`, Editor.tsx lines 194–207) -/

/-- JS `s.substring(a, b)`: both arguments are clamped to `[0, s.length]`
and swapped if in the wrong order. -/
def jsSubstring (s : List Char) (a b : Nat) : List Char :=
  let a' := min a s.length
  let b' := min b s.length
  ((s.take (max a' b')).drop (min a' b'))

/-- JS `s.substring(a)` (one argument): from the clamped position to the
end. -/
def jsSubstringFrom (s : List Char) (a : Nat) : List Char :=
  s.drop (min a s.length)

/-- Placeholder suggestion used to embed JS array indexing
(`suggestions[m.sugIndex]`); every use is guarded by a proof that the
index is in bounds, so the default is never observed. -/
def defaultSuggestion : Suggestion := ⟨[], [], []⟩

/-- `fullModifiedText` (Editor.tsx lines 194–207): walk the sorted spans,
copying `content.substring(lastPos, m.start)` and then the corresponding
suggestion's `modifiedText`, and finish with `content.substring(lastPos)`.
The fold state is the pair (text built so far, `lastPos`). -/
def fullModifiedText (content : List Char) (suggestions : List Suggestion) : List Char :=
  let step := (suggestionMatches content suggestions).foldl
    (fun (acc : List Char × Nat) m =>
      (acc.1 ++ jsSubstring content acc.2 m.start ++
        (suggestions.getD m.sugIndex defaultSuggestion).modifiedText,
       m.endPos))
    ([], 0)
  step.1 ++ jsSubstringFrom content step.2

/-- The aggregated preview as the spec describes it: walk the matched
spans in ascending order from position `p`, keep the characters between
`p` and the next span's `start` verbatim, emit the suggestion's
`modifiedText` in place of the span's text, and continue after the span's
`end`; after the last span keep the rest of the content verbatim. -/
def replaceAscending (content : List Char) (suggestions : List Suggestion) :
    Nat → List Span → List Char
  | p, [] => content.drop p
  | p, sp :: rest =>
    (content.take sp.start).drop p ++
      (suggestions.getD sp.sugIndex defaultSuggestion).modifiedText ++
      replaceAscending content suggestions sp.endPos rest

/-! ## Suggestion lifecycle (Editor.tsx lines 105–111 and 242–318) -/

/-- The slice of `UserDocument` (`types.ts`) that the lifecycle operations
read or write: `content`, `activeSuggestions` and `lastModified`
(timestamps are Nat milliseconds).  `id`, `title` and `snapshots` are
carried through every operation untouched by the `...document` spread and
are omitted. -/
structure UserDocument where
  content : List Char
  activeSuggestions : List Suggestion
  lastModified : Nat
deriving DecidableEq, Repr

/-- The editor mode effect (Editor.tsx lines 105–111): `review` iff the
document has at least one active suggestion, else `edit`. -/
inductive EditorMode where
  | edit
  | review
deriving DecidableEq, Repr

/-- `setMode` effect (Editor.tsx lines 105–111). -/
def modeOf (doc : UserDocument) : EditorMode :=
  if doc.activeSuggestions.length > 0 then EditorMode.review else EditorMode.edit

/-- `activeSuggestions.filter((_, i) => i !== index)`
(Editor.tsx lines 248 and 261): positional filtering embedded through
`enum`. -/
def removeAt (l : List Suggestion) (index : Nat) : List Suggestion :=
  (l.enum.filter (fun p => decide (p.1 ≠ index))).map Prod.snd

/-- JS `s.slice(a, b)` for non-negative arguments: clamp both to
`[0, s.length]`, return the (possibly empty) range between them without
swapping. -/
def jsSlice (s : List Char) (a b : Nat) : List Char :=
  (s.take (min b s.length)).drop (min a s.length)

/-- JS `s.slice(a)` for a non-negative argument. -/
def jsSliceFrom (s : List Char) (a : Nat) : List Char :=
  s.drop (min a s.length)

/-- `handleAcceptChange` (Editor.tsx lines 242–258), parametrised by the
clock value `now` (`Date.now()`): look up the span whose `sugIndex` equals
`index` in the sorted matches; if none exists, return the document
unchanged (`if (!match) return`); otherwise splice the span's range with
the suggestion's `modifiedText`, drop the suggestion at `index`, and stamp
`lastModified`. -/
def handleAcceptChange (doc : UserDocument) (index : Nat) (now : Nat) : UserDocument :=
  match (suggestionMatches doc.content doc.activeSuggestions).find?
      (fun m => decide (m.sugIndex = index)) with
  | none => doc
  | some m =>
    let suggestion := doc.activeSuggestions.getD index defaultSuggestion
    { doc with
      content := jsSlice doc.content 0 m.start ++ suggestion.modifiedText ++
        jsSliceFrom doc.content m.endPos,
      activeSuggestions := removeAt doc.activeSuggestions index,
      lastModified := now }

/-- `handleContentChange` (Editor.tsx lines 311–318): install the typed
content, stamp `lastModified`, and clear `activeSuggestions` in the same
update. -/
def handleContentChange (doc : UserDocument) (newContent : List Char) (now : Nat) :
    UserDocument :=
  { doc with content := newContent, lastModified := now, activeSuggestions := [] }

/-- `{ summary, suggestions }` — the `AIResponse` shape (`types.ts`). -/
structure AIResponse where
  summary : List Char
  suggestions : List Suggestion
deriving DecidableEq, Repr

/-- The two ways the awaited `refineDocument` call of `handleRetryChange`
can come back: a resolved response, or a rejection (caught by the
`catch` block). -/
inductive RefineOutcome where
  | ok (res : AIResponse)
  | failed
deriving DecidableEq, Repr

/-- `handleRetryChange` (Editor.tsx lines 270–304), parametrised by the
outcome of the awaited `refineDocument` call.  On a response with at least
one suggestion, the first returned suggestion has its `originalText`
overwritten with the old slot's `originalText` and replaces the list entry
at `index`; on an empty response or a rejection the document is left
untouched (only toasts are shown). -/
def handleRetryChange (doc : UserDocument) (index : Nat) (outcome : RefineOutcome) :
    UserDocument :=
  match outcome with
  | RefineOutcome.failed => doc
  | RefineOutcome.ok res =>
    match res.suggestions with
    | [] => doc
    | newSug :: _ =>
      let old := doc.activeSuggestions.getD index defaultSuggestion
      let newSug2 := { newSug with originalText := old.originalText }
      { doc with activeSuggestions := doc.activeSuggestions.set index newSug2 }

/-! ## Provider dispatch (`refineDocument`, geminiService.ts lines 262–284) -/

/-- `preserve | refine | elevate` (`types.ts`), forwarded verbatim. -/
inductive ModificationLevel where
  | preserve
  | refine
  | elevate
deriving DecidableEq, Repr

/-- The error kinds thrown by `geminiService.ts`:
`NO_PROVIDER_CONFIGURED` (line 282), the transport/HTTP
`API_ERROR: <status> - <body>` thrown on `!response.ok` (line 241), and
`MISSING_OPENAI_CONFIG` (line 169). -/
inductive RefineError where
  | NO_PROVIDER_CONFIGURED
  | API_ERROR (status : Nat) (body : List Char)
  | MISSING_OPENAI_CONFIG
deriving DecidableEq, Repr

/-- The environment-derived configuration constants of geminiService.ts
(lines 67–75): each is `undefined` (`none`) or a string.
`GENERIC_API_KEY` is not a field because the source defines it as an alias
of `OPENAI_API_KEY` (line 75). -/
structure ProviderConfig where
  GEMINI_API_KEY : Option (List Char)
  OPENAI_BASE_URL : Option (List Char)
  OPENAI_API_KEY : Option (List Char)

/-- JS truthiness of a possibly-undefined string: `undefined` and `""` are
falsy. -/
def truthy : Option (List Char) → Bool
  | none => false
  | some s => !s.isEmpty

/-- The HTTP layer seen by `callOpenAICompatible`: either the decoded
response body, or a non-ok status with its error text. -/
inductive HttpResult where
  | ok (res : AIResponse)
  | notOk (status : Nat) (body : List Char)

/-- `callOpenAICompatible` (geminiService.ts lines 168–260), up to the
externally-supplied HTTP exchange: throw `MISSING_OPENAI_CONFIG` when the
base URL or key is falsy, throw the transport error `API_ERROR` on a
non-ok response, otherwise return the decoded response. -/
def callOpenAICompatible (cfg : ProviderConfig) (http : HttpResult) :
    Except RefineError AIResponse :=
  if !(truthy cfg.OPENAI_BASE_URL) || !(truthy cfg.OPENAI_API_KEY) then
    Except.error RefineError.MISSING_OPENAI_CONFIG
  else
    match http with
    | HttpResult.notOk status body => Except.error (RefineError.API_ERROR status body)
    | HttpResult.ok res => Except.ok res

/-- `refineDocument` (geminiService.ts lines 264–284), parametrised by the
behaviour of the two external providers: `gemini` abstracts `callGemini`
(a function of the request) and `http` the fetch performed by
`callOpenAICompatible`.  Scenario 1: a truthy `GEMINI_API_KEY` routes to
Gemini.  Scenario 2: truthy `BASE_URL` and `API_KEY` route to the
OpenAI-compatible endpoint.  Scenario 3: a truthy `API_KEY` alone
(`GENERIC_API_KEY`) falls back to Gemini.  Otherwise the call rejects with
`NO_PROVIDER_CONFIGURED`. -/
def refineDocument (cfg : ProviderConfig)
    (gemini : List Char → List Char → ModificationLevel → Except RefineError AIResponse)
    (http : HttpResult)
    (content instruction : List Char) (level : ModificationLevel) :
    Except RefineError AIResponse :=
  if truthy cfg.GEMINI_API_KEY then
    gemini content instruction level
  else if truthy cfg.OPENAI_BASE_URL && truthy cfg.OPENAI_API_KEY then
    callOpenAICompatible cfg http
  else if truthy cfg.OPENAI_API_KEY && !(truthy cfg.OPENAI_BASE_URL) then
    gemini content instruction level
  else
    Except.error RefineError.NO_PROVIDER_CONFIGURED

/-- No character position belongs to two distinct spans of the list:
every pair of spans is separated (one ends at or before the other
starts). -/
def pairwiseDisjoint (spans : List Span) : Prop :=
  spans.Pairwise (fun a b => a.endPos ≤ b.start ∨ b.endPos ≤ a.start)

/-! ## Lemmas -/

lemma tokenize_nil : tokenize [] = [] := by rw [tokenize]

lemma tokenize_cons (c : Char) (cs : List Char) :
    tokenize (c :: cs) =
      if isWordChar c then
        (c :: cs.takeWhile isWordChar) :: tokenize (cs.dropWhile isWordChar)
      else if isJsSpace c then
        (c :: cs.takeWhile isJsSpace) :: tokenize (cs.dropWhile isJsSpace)
      else
        [c] :: tokenize cs := by
  rw [tokenize]

lemma tokenize_flatten : ∀ s : List Char, (tokenize s).flatten = s := by
  intro s
  induction s using tokenize.induct with
  | case1 => simp [tokenize_nil]
  | case2 c cs h ih =>
    rw [tokenize_cons]
    simp only [h, if_true, List.flatten_cons, List.cons_append, List.cons.injEq, true_and]
    rw [ih]; exact List.takeWhile_append_dropWhile _ _
  | case3 c cs h h2 ih =>
    rw [tokenize_cons]
    simp only [h, h2, if_false, if_true, Bool.false_eq_true, List.flatten_cons,
      List.cons_append, List.cons.injEq, true_and]
    rw [ih]; exact List.takeWhile_append_dropWhile _ _
  | case4 c cs h h2 ih =>
    rw [tokenize_cons]
    simp [h, h2, ih]

lemma sameRemoveText_append (xs ys : List DiffPart) :
    sameRemoveText (xs ++ ys) = sameRemoveText xs ++ sameRemoveText ys := by
  simp [sameRemoveText, List.filter_append]

lemma sameAddText_append (xs ys : List DiffPart) :
    sameAddText (xs ++ ys) = sameAddText xs ++ sameAddText ys := by
  simp [sameAddText, List.filter_append]

lemma backtrack_zero_zero (t1 t2 : List (List Char)) : backtrack t1 t2 0 0 = [] := by
  rw [backtrack]

lemma backtrack_zero_succ (t1 t2 : List (List Char)) (j : Nat) :
    backtrack t1 t2 0 (j+1) = backtrack t1 t2 0 j ++ [⟨DiffType.add, t2.getD j []⟩] := by
  rw [backtrack]

lemma backtrack_succ_zero (t1 t2 : List (List Char)) (i : Nat) :
    backtrack t1 t2 (i+1) 0 = backtrack t1 t2 i 0 ++ [⟨DiffType.remove, t1.getD i []⟩] := by
  rw [backtrack]

lemma backtrack_succ_succ (t1 t2 : List (List Char)) (i j : Nat) :
    backtrack t1 t2 (i+1) (j+1) =
      if t1.getD i [] = t2.getD j [] then
        backtrack t1 t2 i j ++ [⟨DiffType.same, t1.getD i []⟩]
      else if lcsMatrix t1 t2 (i+1) j ≥ lcsMatrix t1 t2 i (j+1) then
        backtrack t1 t2 (i+1) j ++ [⟨DiffType.add, t2.getD j []⟩]
      else
        backtrack t1 t2 i (j+1) ++ [⟨DiffType.remove, t1.getD i []⟩] := by
  rw [backtrack]

lemma flatten_take_succ (l : List (List Char)) (n : Nat) (h : n < l.length) :
    (l.take (n+1)).flatten = (l.take n).flatten ++ l.getD n [] := by
  rw [List.take_succ, List.flatten_append]
  simp [List.getElem?_eq_getElem h, List.getD]

/-- Each backtrack step consumes one token from the side(s) it decrements,
so the `same`+`remove` values spell out the first `i` original tokens and
the `same`+`add` values the first `j` modified tokens — for any contents of
the LCS table. -/
lemma backtrack_reconstruct (t1 t2 : List (List Char)) (i j : Nat) :
    i ≤ t1.length → j ≤ t2.length →
      sameRemoveText (backtrack t1 t2 i j) = (t1.take i).flatten ∧
      sameAddText (backtrack t1 t2 i j) = (t2.take j).flatten := by
  induction i, j using backtrack.induct t1 t2 with
  | case1 =>
    intro _ _
    simp [backtrack_zero_zero, sameRemoveText, sameAddText]
  | case2 j ih =>
    intro h1 h2
    obtain ⟨ihr, iha⟩ := ih h1 (Nat.le_of_succ_le h2)
    rw [backtrack_zero_succ, sameRemoveText_append, sameAddText_append, ihr, iha]
    constructor
    · simp [sameRemoveText]
    · rw [flatten_take_succ _ _ (Nat.lt_of_succ_le h2)]
      simp [sameAddText]
  | case3 i ih =>
    intro h1 h2
    obtain ⟨ihr, iha⟩ := ih (Nat.le_of_succ_le h1) h2
    rw [backtrack_succ_zero, sameRemoveText_append, sameAddText_append, ihr, iha]
    constructor
    · rw [flatten_take_succ _ _ (Nat.lt_of_succ_le h1)]
      simp [sameRemoveText]
    · simp [sameAddText]
  | case4 i j heq ih =>
    intro h1 h2
    obtain ⟨ihr, iha⟩ := ih (Nat.le_of_succ_le h1) (Nat.le_of_succ_le h2)
    rw [backtrack_succ_succ, if_pos heq]
    rw [sameRemoveText_append, sameAddText_append, ihr, iha,
      flatten_take_succ _ _ (Nat.lt_of_succ_le h1),
      flatten_take_succ _ _ (Nat.lt_of_succ_le h2)]
    constructor
    · simp [sameRemoveText]
    · simp [sameAddText]
      simpa [List.getD] using heq
  | case5 i j heq hge ih =>
    intro h1 h2
    obtain ⟨ihr, iha⟩ := ih h1 (Nat.le_of_succ_le h2)
    rw [backtrack_succ_succ, if_neg heq, if_pos hge]
    rw [sameRemoveText_append, sameAddText_append, ihr, iha,
      flatten_take_succ _ _ (Nat.lt_of_succ_le h2)]
    constructor
    · simp [sameRemoveText]
    · simp [sameAddText]
  | case6 i j heq hge ih =>
    intro h1 h2
    obtain ⟨ihr, iha⟩ := ih (Nat.le_of_succ_le h1) h2
    rw [backtrack_succ_succ, if_neg heq, if_neg hge]
    rw [sameRemoveText_append, sameAddText_append, ihr, iha,
      flatten_take_succ _ _ (Nat.lt_of_succ_le h1)]
    constructor
    · simp [sameRemoveText]
    · simp [sameAddText]

lemma specBacktrack_eq (t1 t2 : List (List Char)) (i j : Nat) :
    specBacktrack t1 t2 i j =
      if i = 0 ∧ j = 0 then []
      else if 0 < i ∧ 0 < j ∧ t1.getD (i-1) [] = t2.getD (j-1) [] then
        specBacktrack t1 t2 (i-1) (j-1) ++ [⟨DiffType.same, t1.getD (i-1) []⟩]
      else if 0 < j ∧ (i = 0 ∨ lcsMatrix t1 t2 i (j-1) ≥ lcsMatrix t1 t2 (i-1) j) then
        specBacktrack t1 t2 i (j-1) ++ [⟨DiffType.add, t2.getD (j-1) []⟩]
      else
        specBacktrack t1 t2 (i-1) j ++ [⟨DiffType.remove, t1.getD (i-1) []⟩] := by
  rw [specBacktrack]
  simp only [dite_eq_ite]

/-- The source's backtrack loop agrees with the spec's prescription at
every cell. -/
lemma backtrack_eq_specBacktrack (t1 t2 : List (List Char)) (i j : Nat) :
    backtrack t1 t2 i j = specBacktrack t1 t2 i j := by
  induction i, j using backtrack.induct t1 t2 with
  | case1 =>
    rw [backtrack_zero_zero, specBacktrack_eq]
    simp
  | case2 j ih =>
    rw [backtrack_zero_succ, specBacktrack_eq, if_neg (by omega),
      if_neg (by rintro ⟨h, -⟩; omega), if_pos ⟨Nat.succ_pos j, Or.inl rfl⟩]
    simp [ih]
  | case3 i ih =>
    rw [backtrack_succ_zero, specBacktrack_eq, if_neg (by omega),
      if_neg (by rintro ⟨-, h, -⟩; omega), if_neg (by rintro ⟨h, -⟩; omega)]
    simp [ih]
  | case4 i j heq ih =>
    rw [backtrack_succ_succ, if_pos heq, specBacktrack_eq, if_neg (by omega),
      if_pos ⟨Nat.succ_pos i, Nat.succ_pos j, by simpa using heq⟩]
    simp [ih]
  | case5 i j heq hge ih =>
    rw [backtrack_succ_succ, if_neg heq, if_pos hge, specBacktrack_eq,
      if_neg (by omega),
      if_neg (by rintro ⟨-, -, h⟩; exact heq (by simpa using h)),
      if_pos ⟨Nat.succ_pos j, Or.inr (by simpa using hge)⟩]
    simp [ih]
  | case6 i j heq hge ih =>
    rw [backtrack_succ_succ, if_neg heq, if_neg hge, specBacktrack_eq,
      if_neg (by omega),
      if_neg (by rintro ⟨-, -, h⟩; exact heq (by simpa using h)),
      if_neg (fun hcon => by
        rcases hcon with ⟨-, h | h⟩
        · omega
        · exact hge (by simpa using h))]
    simp [ih]

/-! ## Helper lemmas -/

lemma enumFrom_filter_keep (k : Nat) :
    ∀ (xs : List Suggestion) (n : Nat), k < n →
      ((List.enumFrom n xs).filter (fun p => decide (p.1 ≠ k))).map Prod.snd = xs := by
  intro xs
  induction xs with
  | nil => intro n _; simp
  | cons x xs ih =>
    intro n hk
    rw [List.enumFrom_cons, List.filter_cons]
    rw [if_pos (by simp only [decide_eq_true_eq]; omega)]
    rw [List.map_cons, ih (n+1) (Nat.lt_succ_of_lt hk)]

lemma enumFrom_filter_eraseIdx :
    ∀ (xs : List Suggestion) (n i : Nat),
      ((List.enumFrom n xs).filter (fun p => decide (p.1 ≠ n + i))).map Prod.snd =
        xs.eraseIdx i := by
  intro xs
  induction xs with
  | nil => intro n i; simp [List.eraseIdx]
  | cons x xs ih =>
    intro n i
    rw [List.enumFrom_cons, List.filter_cons]
    cases i with
    | zero =>
      rw [if_neg (by simp)]
      rw [List.eraseIdx_cons_zero]
      exact enumFrom_filter_keep n xs (n+1) (Nat.lt_succ_self n)
    | succ i =>
      rw [if_pos (by simp only [decide_eq_true_eq]; omega)]
      rw [List.map_cons, List.eraseIdx_cons_succ]
      have harith : n + (i + 1) = (n + 1) + i := by omega
      rw [harith, ih (n+1) i]

/-- The positional filter of `handleAcceptChange`/`handleRejectChange` is
exactly the removal of the entry at `index`. -/
lemma removeAt_eq_eraseIdx (l : List Suggestion) (index : Nat) :
    removeAt l index = l.eraseIdx index := by
  have h := enumFrom_filter_eraseIdx l 0 index
  simpa [removeAt, List.enum] using h

lemma insertSpan_perm (x : Span) (l : List Span) :
    List.Perm (insertSpan x l) (x :: l) := by
  induction l with
  | nil => exact List.Perm.refl _
  | cons y ys ih =>
    rw [insertSpan]
    split
    · exact (ih.cons y).trans (List.Perm.swap x y ys)
    · exact List.Perm.refl _

lemma sortSpans_perm (l : List Span) : List.Perm (sortSpans l) l := by
  suffices h : ∀ acc : List Span, List.Perm (l.foldl (fun acc x => insertSpan x acc) acc) (l ++ acc) by
    simpa [sortSpans] using h []
  induction l with
  | nil => intro acc; simp
  | cons x xs ih =>
    intro acc
    rw [List.foldl_cons]
    refine (ih (insertSpan x acc)).trans ?_
    have h1 : List.Perm (xs ++ insertSpan x acc) (xs ++ x :: acc) :=
      List.Perm.append_left xs (insertSpan_perm x acc)
    exact h1.trans List.perm_middle

lemma mem_sortSpans {sp : Span} {l : List Span} : sp ∈ sortSpans l ↔ sp ∈ l :=
  (sortSpans_perm l).mem_iff

lemma indexOfFrom_some {hay pat : List Char} {pos i : Nat}
    (h : indexOfFrom hay pat pos = some i) :
    min pos hay.length ≤ i ∧ i + pat.length ≤ hay.length := by
  have hmem := List.mem_of_find?_eq_some h
  have hpred := List.find?_some h
  have hi : i < hay.length + 1 := List.mem_range.mp hmem
  simp only [Bool.and_eq_true, decide_eq_true_eq] at hpred
  obtain ⟨hle, hocc⟩ := hpred
  refine ⟨hle, ?_⟩
  have hpre : pat.length ≤ (hay.drop i).length :=
    (List.isPrefixOf_iff_prefix.mp hocc).length_le
  rw [List.length_drop] at hpre
  omega

lemma findSpanLoop_some {content orig : List Char} {ms : List Span} {idx : Nat} :
    ∀ (fuel pos : Nat) (sp : Span),
      findSpanLoop content orig ms idx fuel pos = some sp →
      sp.sugIndex = idx ∧ sp.endPos = sp.start + orig.length ∧
        sp.endPos ≤ content.length := by
  intro fuel
  induction fuel with
  | zero => intro pos sp h; simp [findSpanLoop] at h
  | succ fuel ih =>
    intro pos sp h
    rw [findSpanLoop] at h
    cases hfind : indexOfFrom content orig pos with
    | none => simp [hfind] at h
    | some foundIdx =>
      simp only [hfind] at h
      by_cases hov : isOverlapping ms foundIdx (foundIdx + orig.length) = true
      · rw [if_pos hov] at h
        exact ih (foundIdx + 1) sp h
      · rw [if_neg hov] at h
        obtain ⟨-, hbound⟩ := indexOfFrom_some hfind
        cases h
        exact ⟨rfl, rfl, hbound⟩

lemma matchesLoop_bounds (content : List Char) (N : Nat) :
    ∀ (sugs : List Suggestion) (idx : Nat) (ms : List Span),
      idx + sugs.length ≤ N →
      (∀ sp ∈ ms, sp.start ≤ sp.endPos ∧ sp.endPos ≤ content.length ∧ sp.sugIndex < N) →
      ∀ sp ∈ matchesLoop content sugs idx ms,
        sp.start ≤ sp.endPos ∧ sp.endPos ≤ content.length ∧ sp.sugIndex < N := by
  intro sugs
  induction sugs with
  | nil =>
    intro idx ms _ hms sp hsp
    exact hms sp hsp
  | cons sug rest ih =>
    intro idx ms hlen hms sp hsp
    rw [matchesLoop] at hsp
    cases hfind : findSpanLoop content sug.originalText ms idx (content.length + 2) 0 with
    | none =>
      simp only [hfind] at hsp
      exact ih (idx+1) ms (by simp at hlen ⊢; omega) hms sp hsp
    | some sp0 =>
      simp only [hfind] at hsp
      refine ih (idx+1) (ms ++ [sp0]) (by simp at hlen ⊢; omega) ?_ sp hsp
      intro sp1 hsp1
      rcases List.mem_append.mp hsp1 with h1 | h1
      · exact hms sp1 h1
      · have heq : sp1 = sp0 := List.mem_singleton.mp h1
        subst heq
        obtain ⟨hidx, hend, hb⟩ := findSpanLoop_some _ _ _ hfind
        refine ⟨by omega, hb, ?_⟩
        rw [hidx]
        simp at hlen
        omega

/-- Every span the matcher produces is well formed: its range lies inside
the content and its `sugIndex` indexes the suggestion list. -/
lemma suggestionMatches_bounds {content : List Char} {sugs : List Suggestion} {sp : Span}
    (h : sp ∈ suggestionMatches content sugs) :
    sp.start ≤ sp.endPos ∧ sp.endPos ≤ content.length ∧ sp.sugIndex < sugs.length := by
  have hmem : sp ∈ matchesLoop content sugs 0 [] := mem_sortSpans.mp h
  exact matchesLoop_bounds content sugs.length sugs 0 [] (by simp) (by simp) sp hmem

lemma jsSubstring_of_le {s : List Char} {a b : Nat} (hab : a ≤ b) (hb : b ≤ s.length) :
    jsSubstring s a b = (s.take b).drop a := by
  have ha : a ≤ s.length := hab.trans hb
  simp [jsSubstring, Nat.min_eq_left ha, Nat.min_eq_left hb, Nat.max_eq_right hab,
    Nat.min_eq_left hab]

lemma jsSubstringFrom_of_le {s : List Char} {a : Nat} (ha : a ≤ s.length) :
    jsSubstringFrom s a = s.drop a := by
  simp [jsSubstringFrom, Nat.min_eq_left ha]

/-- The accumulator fold of `fullModifiedText`, run over any well-formed
ascending chain of disjoint spans starting at `lastPos = p`, produces the
spec's ascending replacement. -/
lemma foldl_replace (content : List Char) (sugs : List Suggestion) :
    ∀ (spans : List Span) (acc : List Char) (p : Nat),
      p ≤ content.length →
      List.Chain (fun a b : Span => a.endPos ≤ b.start) ⟨0, p, 0⟩ spans →
      (∀ sp ∈ spans, sp.start ≤ sp.endPos ∧ sp.endPos ≤ content.length) →
      (spans.foldl
          (fun (acc : List Char × Nat) m =>
            (acc.1 ++ jsSubstring content acc.2 m.start ++
              (sugs.getD m.sugIndex defaultSuggestion).modifiedText,
             m.endPos)) (acc, p)).1 ++
        jsSubstringFrom content
          (spans.foldl
            (fun (acc : List Char × Nat) m =>
              (acc.1 ++ jsSubstring content acc.2 m.start ++
                (sugs.getD m.sugIndex defaultSuggestion).modifiedText,
               m.endPos)) (acc, p)).2 =
        acc ++ replaceAscending content sugs p spans := by
  intro spans
  induction spans with
  | nil =>
    intro acc p hp _ _
    simp [replaceAscending, jsSubstringFrom_of_le hp]
  | cons sp rest ih =>
    intro acc p hp hchain hb
    have hps : p ≤ sp.start := by
      cases hchain with
      | cons h _ => exact h
    have hsp := hb sp (List.mem_cons_self sp rest)
    have hchain2 : List.Chain (fun a b : Span => a.endPos ≤ b.start) ⟨0, sp.endPos, 0⟩ rest := by
      cases hchain with
      | cons _ htail =>
        cases htail with
        | nil => exact List.Chain.nil
        | cons h2 t2 => exact List.Chain.cons h2 t2
    rw [List.foldl_cons]
    rw [ih (acc ++ jsSubstring content p sp.start ++
        (sugs.getD sp.sugIndex defaultSuggestion).modifiedText) sp.endPos hsp.2
        hchain2 (fun x hx => hb x (List.mem_cons_of_mem sp hx))]
    rw [replaceAscending, jsSubstring_of_le hps (hsp.1.trans hsp.2)]
    simp [List.append_assoc]

lemma jsSlice_zero_of_le {s : List Char} {b : Nat} (hb : b ≤ s.length) :
    jsSlice s 0 b = s.take b := by
  simp [jsSlice, Nat.min_eq_left hb]

lemma jsSliceFrom_of_le {s : List Char} {a : Nat} (ha : a ≤ s.length) :
    jsSliceFrom s a = s.drop a := by
  simp [jsSliceFrom, Nat.min_eq_left ha]

/-! ## Claim theorems -/

/-- C1: the claim that for every content and suggestion list the matcher's
spans are sorted, pairwise non-overlapping and unique per suggestion is
**false on the code**: the overlap test of Editor.tsx lines 173–176 does
not flag a candidate that strictly contains an already accepted span.  On
content `"abcde"` with suggestions claiming `"c"` and then `"abcde"`, the
matcher emits the spans `[0, 5)` (for suggestion 1) and `[2, 3)` (for
suggestion 0), which share character positions 2. -/
theorem suggestionMatches_nested_overlap :
    suggestionMatches (['a','b','c','d','e'] : List Char)
        [⟨['c'], ['X'], ['r']⟩, ⟨['a','b','c','d','e'], ['Y'], ['r']⟩] =
      [⟨0, 5, 1⟩, ⟨2, 3, 0⟩] ∧
    ¬ pairwiseDisjoint [⟨0, 5, 1⟩, ⟨2, 3, 0⟩] := by
  constructor
  · rfl
  · intro h
    have h2 := (List.pairwise_cons.mp h).1 ⟨2, 3, 0⟩ (List.mem_singleton_self _)
    simp at h2

/-- C2: the claim that a suggestion with empty `originalText` produces no
span is **false on the code**: `content.indexOf("", 0)` is `0`, the empty
string never fails the overlap test against an empty accepted-span list,
and the matcher emits the degenerate zero-width span `[0, 0)`. -/
theorem suggestionMatches_zero_width :
    suggestionMatches (['x'] : List Char) [⟨[], ['y'], ['r']⟩] = [⟨0, 0, 0⟩] := by
  rfl

/-- C3: `Accept(index)` with a resolvable span `m` replaces exactly the
characters `[m.start, m.endPos)` of the content with suggestion `index`'s
`modifiedText`, removes the suggestion at `index` (and only it) from the
list, and stamps `lastModified` with the current clock value; with no
resolvable span the document is returned unchanged. -/
theorem handleAcceptChange_spec (doc : UserDocument) (index now : Nat) :
    (∀ m : Span,
      (suggestionMatches doc.content doc.activeSuggestions).find?
          (fun m2 => decide (m2.sugIndex = index)) = some m →
      handleAcceptChange doc index now =
        { content := doc.content.take m.start ++
            (doc.activeSuggestions.getD index defaultSuggestion).modifiedText ++
            doc.content.drop m.endPos,
          activeSuggestions := doc.activeSuggestions.eraseIdx index,
          lastModified := now }) ∧
    ((suggestionMatches doc.content doc.activeSuggestions).find?
        (fun m2 => decide (m2.sugIndex = index)) = none →
      handleAcceptChange doc index now = doc) := by
  constructor
  · intro m hm
    have hmem : m ∈ suggestionMatches doc.content doc.activeSuggestions :=
      List.mem_of_find?_eq_some hm
    obtain ⟨h1, h2, -⟩ := suggestionMatches_bounds hmem
    rw [handleAcceptChange]
    simp only [hm]
    simp only [UserDocument.mk.injEq]
    refine ⟨?_, removeAt_eq_eraseIdx _ _, trivial⟩
    rw [jsSlice_zero_of_le (h1.trans h2), jsSliceFrom_of_le h2]
  · intro hnone
    rw [handleAcceptChange]
    simp only [hnone]

/-- Witness for C3 at the spec's own scenario: accepting
`{originalText: "cat", modifiedText: "dog"}` on `"The cat sat."` yields
`"The dog sat."`, an empty suggestion list, and the new timestamp. -/
theorem handleAcceptChange_spec_witness :
    handleAcceptChange
        ⟨['T','h','e',' ','c','a','t',' ','s','a','t','.'],
         [⟨['c','a','t'], ['d','o','g'], ['x']⟩], 3⟩ 0 7 =
      ⟨['T','h','e',' ','d','o','g',' ','s','a','t','.'], [], 7⟩ := by
  have h := (handleAcceptChange_spec
      ⟨['T','h','e',' ','c','a','t',' ','s','a','t','.'],
       [⟨['c','a','t'], ['d','o','g'], ['x']⟩], 3⟩ 0 7).1 ⟨4, 7, 0⟩ (by rfl)
  rw [h]
  rfl

/-- C4: the concatenation of the `same` and `remove` (delete) values of
`computeDiff a b`, in output order, is exactly `a`, and the concatenation
of the `same` and `add` (insert) values is exactly `b`. -/
theorem computeDiff_roundtrip (a b : List Char) :
    sameRemoveText (computeDiff a b) = a ∧ sameAddText (computeDiff a b) = b := by
  have h := backtrack_reconstruct (tokenize a) (tokenize b)
    (tokenize a).length (tokenize b).length (le_refl _) (le_refl _)
  rw [List.take_length, List.take_length, tokenize_flatten, tokenize_flatten] at h
  exact h

/-- C5: the source's diff backtrack is exactly the deterministic procedure
the spec prescribes — starting from the final LCS-table cell; on unequal
current tokens emitting an insert (`add`) step exactly when the
modified-side lookback value is ≥ the original-side lookback value or the
original side is exhausted, and a delete (`remove`) step otherwise.  Both
sides are Lean functions of the two strings, so determinism is inherent. -/
theorem computeDiff_eq_specDiff (a b : List Char) : computeDiff a b = specDiff a b :=
  backtrack_eq_specBacktrack (tokenize a) (tokenize b)
    (tokenize a).length (tokenize b).length

/-- C6: `Retry(index)` with a successful response carrying at least one
suggestion replaces only the entry at `index` with the first returned
suggestion whose `originalText` is overwritten with the old entry's
`originalText`, preserving list length, order and every other entry, and
leaving `content` untouched; on a failed or empty response the document is
returned unchanged. -/
theorem handleRetryChange_spec (doc : UserDocument) (index : Nat)
    (outcome : RefineOutcome) (hidx : index < doc.activeSuggestions.length) :
    (∀ (res : AIResponse) (first : Suggestion) (rest : List Suggestion),
      outcome = RefineOutcome.ok res → res.suggestions = first :: rest →
      (handleRetryChange doc index outcome).activeSuggestions.length =
          doc.activeSuggestions.length ∧
      (handleRetryChange doc index outcome).activeSuggestions[index]? =
          some { first with originalText :=
            (doc.activeSuggestions.getD index defaultSuggestion).originalText } ∧
      (∀ j : Nat, j ≠ index →
        (handleRetryChange doc index outcome).activeSuggestions[j]? =
          doc.activeSuggestions[j]?) ∧
      (handleRetryChange doc index outcome).content = doc.content) ∧
    (outcome = RefineOutcome.failed → handleRetryChange doc index outcome = doc) ∧
    (∀ res : AIResponse, outcome = RefineOutcome.ok res → res.suggestions = [] →
      handleRetryChange doc index outcome = doc) := by
  refine ⟨?_, ?_, ?_⟩
  · intro res first rest hok hsug
    subst hok
    rw [handleRetryChange]
    simp only [hsug]
    refine ⟨List.length_set .., ?_, ?_, trivial⟩
    · simp [List.getElem?_set_self, hidx]
    · intro j hj
      simp [List.getElem?_set_ne (Ne.symm hj)]
  · intro hfail
    subst hfail
    rw [handleRetryChange]
  · intro res hok hsug
    subst hok
    rw [handleRetryChange]
    simp only [hsug]

/-- Witness for C6 at the spec's scenario `[A, B, C]`, `Retry(1)` resolving
to `D`: the list becomes `[A, D, C]` with `D.originalText` forced to B's
original. -/
theorem handleRetryChange_spec_witness :
    (handleRetryChange
        ⟨['t'],
         [⟨['a'], ['a'], ['a']⟩, ⟨['b'], ['b'], ['b']⟩, ⟨['c'], ['c'], ['c']⟩], 0⟩ 1
        (RefineOutcome.ok ⟨['s'], [⟨['q'], ['d'], ['r']⟩]⟩)).activeSuggestions[1]? =
      some ⟨['b'], ['d'], ['r']⟩ ∧
    (handleRetryChange
        ⟨['t'],
         [⟨['a'], ['a'], ['a']⟩, ⟨['b'], ['b'], ['b']⟩, ⟨['c'], ['c'], ['c']⟩], 0⟩ 1
        (RefineOutcome.ok ⟨['s'], [⟨['q'], ['d'], ['r']⟩]⟩)).activeSuggestions.length
      = 3 := by
  have h := (handleRetryChange_spec
      ⟨['t'],
       [⟨['a'], ['a'], ['a']⟩, ⟨['b'], ['b'], ['b']⟩, ⟨['c'], ['c'], ['c']⟩], 0⟩ 1
      (RefineOutcome.ok ⟨['s'], [⟨['q'], ['d'], ['r']⟩]⟩) (by decide)).1
      ⟨['s'], [⟨['q'], ['d'], ['r']⟩]⟩ ⟨['q'], ['d'], ['r']⟩ [] rfl rfl
  refine ⟨h.2.1, ?_⟩
  rw [h.1]
  rfl

/-- C7: a free-text content edit on a document with active suggestions
atomically installs the new content, clears `activeSuggestions`, and
leaves the mode effect in `edit`. -/
theorem handleContentChange_spec (doc : UserDocument) (v : List Char) (now : Nat)
    (h : doc.activeSuggestions ≠ []) :
    (handleContentChange doc v now).activeSuggestions = [] ∧
    modeOf (handleContentChange doc v now) = EditorMode.edit ∧
    (handleContentChange doc v now).content = v := by
  refine ⟨rfl, ?_, rfl⟩
  simp [modeOf, handleContentChange]

/-- Witness for C7: editing a one-suggestion document clears the
suggestion list and returns the mode effect to `edit`. -/
theorem handleContentChange_spec_witness :
    (handleContentChange ⟨['a'], [⟨['a'], ['b'], ['c']⟩], 0⟩ ['z'] 1).activeSuggestions
        = [] ∧
    modeOf (handleContentChange ⟨['a'], [⟨['a'], ['b'], ['c']⟩], 0⟩ ['z'] 1) =
        EditorMode.edit ∧
    (handleContentChange ⟨['a'], [⟨['a'], ['b'], ['c']⟩], 0⟩ ['z'] 1).content = ['z'] :=
  handleContentChange_spec ⟨['a'], [⟨['a'], ['b'], ['c']⟩], 0⟩ ['z'] 1 (by decide)

/-- C8: when no provider is usable — falsy `GEMINI_API_KEY`, no truthy
`BASE_URL`/`API_KEY` pair, and falsy generic `API_KEY` — `refineDocument`
rejects with the distinguished `NO_PROVIDER_CONFIGURED` configuration
error, a kind distinct from the transport `API_ERROR` raised on a failed
provider request. -/
theorem refineDocument_no_provider (cfg : ProviderConfig)
    (gemini : List Char → List Char → ModificationLevel → Except RefineError AIResponse)
    (http : HttpResult) (content instruction : List Char) (level : ModificationLevel)
    (h1 : truthy cfg.GEMINI_API_KEY = false)
    (h2 : ¬(truthy cfg.OPENAI_BASE_URL = true ∧ truthy cfg.OPENAI_API_KEY = true))
    (h3 : truthy cfg.OPENAI_API_KEY = false) :
    refineDocument cfg gemini http content instruction level =
      Except.error RefineError.NO_PROVIDER_CONFIGURED ∧
    (∀ (status : Nat) (body : List Char),
      RefineError.NO_PROVIDER_CONFIGURED ≠ RefineError.API_ERROR status body) := by
  constructor
  · simp [refineDocument, h1, h3]
  · intro status body hcon
    exact RefineError.noConfusion hcon

/-- Witness for C8: with every configuration value `undefined` the call
rejects with `NO_PROVIDER_CONFIGURED`. -/
theorem refineDocument_no_provider_witness :
    refineDocument ⟨none, none, none⟩
        (fun _ _ _ => Except.error RefineError.MISSING_OPENAI_CONFIG)
        (HttpResult.ok ⟨[], []⟩) [] [] ModificationLevel.preserve =
      Except.error RefineError.NO_PROVIDER_CONFIGURED ∧
    (∀ (status : Nat) (body : List Char),
      RefineError.NO_PROVIDER_CONFIGURED ≠ RefineError.API_ERROR status body) :=
  refineDocument_no_provider ⟨none, none, none⟩
    (fun _ _ _ => Except.error RefineError.MISSING_OPENAI_CONFIG)
    (HttpResult.ok ⟨[], []⟩) [] [] ModificationLevel.preserve
    (by decide) (by decide) (by decide)

/-- C9: concatenating the tokens of `tokenize s` in order yields exactly
`s`, and tokenizing the empty string yields the empty sequence. -/
theorem tokenize_roundtrip (s : List Char) :
    (tokenize s).flatten = s ∧ tokenize ([] : List Char) = [] :=
  ⟨tokenize_flatten s, tokenize_nil⟩

/-- C10: whenever the matched spans form an ascending chain of disjoint
ranges (each span ends at or before the next begins — the reading of
"pairwise disjoint and sorted ascending" for character ranges), the
aggregated preview `fullModifiedText` equals the content with each matched
span's text replaced by the corresponding suggestion's `modifiedText`, in
ascending span order, all other characters preserved verbatim
(`replaceAscending`). -/
theorem fullModifiedText_spec (content : List Char) (sugs : List Suggestion)
    (h : List.Chain' (fun a b : Span => a.endPos ≤ b.start)
      (suggestionMatches content sugs)) :
    fullModifiedText content sugs =
      replaceAscending content sugs 0 (suggestionMatches content sugs) := by
  have hb : ∀ sp ∈ suggestionMatches content sugs,
      sp.start ≤ sp.endPos ∧ sp.endPos ≤ content.length :=
    fun sp hsp => ⟨(suggestionMatches_bounds hsp).1, (suggestionMatches_bounds hsp).2.1⟩
  have hchain : List.Chain (fun a b : Span => a.endPos ≤ b.start) ⟨0, 0, 0⟩
      (suggestionMatches content sugs) := by
    cases hm : suggestionMatches content sugs with
    | nil => exact List.Chain.nil
    | cons x l =>
      rw [hm] at h
      exact List.Chain.cons (Nat.zero_le _) h
  have hf := foldl_replace content sugs (suggestionMatches content sugs) [] 0
    (Nat.zero_le _) hchain hb
  simpa [fullModifiedText] using hf

/-- Witness for C10: on `"ab"` with the single suggestion `a → X` the
preview is exactly the ascending replacement. -/
theorem fullModifiedText_spec_witness :
    fullModifiedText (['a','b'] : List Char) [⟨['a'], ['X'], ['r']⟩] =
      replaceAscending (['a','b'] : List Char) [⟨['a'], ['X'], ['r']⟩] 0
        (suggestionMatches (['a','b'] : List Char) [⟨['a'], ['X'], ['r']⟩]) :=
  fullModifiedText_spec (['a','b'] : List Char) [⟨['a'], ['X'], ['r']⟩]
    (by rw [show suggestionMatches (['a','b'] : List Char) [⟨['a'], ['X'], ['r']⟩] =
          [⟨0, 1, 0⟩] from rfl]
        exact List.chain'_singleton _)

end LineEdit
